import Mathlib

/-!
Verification of the selection-state logic of a weather-map viewer
(single-file React application, `src/App.tsx`).

The development shallowly embeds the client-side logic of the
application: the overlay URL builder (`getOMUrl`, `fmtModelRun`,
`fmtSelectedTime`, `pad`), the metadata URL rule (`fetchMetaDataUrl`),
the level-grouping engine (`variableList`, `levelGroupsList`), and the
selection state machine (`handleDomainChange`, `handleVariableChange`,
`handleLevelChange`, plus the startup transition `initMapLoad`).

The textual patterns `LEVEL_REGEX` / `LEVEL_PREFIX` and the option
tables `variableOptions` / `levelGroupVariables` are imported by the
source from an external library and are opaque to this repository;
they are embedded as parameters (`LevelPatterns`, `opts`, `lgVars`)
so every theorem quantifies over them.
-/

/-- JS `String.prototype.startsWith`, modelled on the character list of
the string (the sources only ever apply it to ASCII identifiers). -/
def jsStartsWith (s pre : String) : Bool :=
  pre.data.isPrefixOf s.data

/-- A UTC calendar timestamp as read off a JS `Date` through its
`getUTCFullYear/Month/Date/Hours/Minutes` accessors.  `month` is
0-based, exactly as `getUTCMonth` returns it. -/
structure UTCDate where
  year : Nat
  month : Nat
  day : Nat
  hours : Nat
  minutes : Nat
deriving DecidableEq

/-- Embeds `pad`: `String(num).padStart(2, '0')` for a natural number. -/
def pad (num : Nat) : String :=
  let s := toString num
  String.mk (List.replicate (2 - s.length) '0') ++ s

/-- Embeds `fmtModelRun`: `YYYY/MM/DD/HHMMZ` from the UTC fields
(the source adds 1 to the 0-based `getUTCMonth`). -/
def fmtModelRun (modelRun : UTCDate) : String :=
  toString modelRun.year ++ "/" ++ pad (modelRun.month + 1) ++ "/" ++ pad modelRun.day
    ++ "/" ++ pad modelRun.hours ++ pad modelRun.minutes ++ "Z"

/-- Embeds `fmtSelectedTime`: `YYYY-MM-DDTHHMM` from the UTC fields. -/
def fmtSelectedTime (time : UTCDate) : String :=
  toString time.year ++ "-" ++ pad (time.month + 1) ++ "-" ++ pad time.day
    ++ "T" ++ pad time.hours ++ pad time.minutes

/-- Embeds `getOMUrl`: endpoint chosen by the `dwd_icon` rule, then
`/data_spatial/<domain>/<modelRun>/<selectedTime>.om?variable=<name>`. -/
def getOMUrl (domain varname : String) (modelRun selectedTime : UTCDate) : String :=
  let uri := if jsStartsWith domain "dwd_icon" then "https://s3.servert.ch"
    else "https://map-tiles.open-meteo.com"
  uri ++ "/data_spatial/" ++ domain ++ "/" ++ fmtModelRun modelRun ++ "/"
    ++ fmtSelectedTime selectedTime ++ ".om" ++ "?variable=" ++ varname

/-- Embeds the URL computed inside `fetchMetaData`: same endpoint rule,
path `/data_spatial/<domain>/latest.json`. -/
def fetchMetaDataUrl (domainValue : String) : String :=
  let uri := if jsStartsWith domainValue "dwd_icon" then "https://s3.servert.ch"
    else "https://map-tiles.open-meteo.com"
  uri ++ "/data_spatial/" ++ domainValue ++ "/latest.json"

/-- The static endpoint rule the spec describes, written once so the two
call sites (`getOMUrl` and `fetchMetaData`) can be proved to agree on it. -/
def baseEndpoint (d : String) : String :=
  if jsStartsWith d "dwd_icon" then "https://s3.servert.ch"
  else "https://map-tiles.open-meteo.com"

/-- JS `String.prototype.includes`: substring containment, modelled on
the character lists. -/
def includesStr (s pat : String) : Bool :=
  decide (pat.data <:+: s.data)

/-- The level-name patterns `LEVEL_REGEX` (membership test, used by
`hasLevels`) and `LEVEL_PREFIX` (group-prefix capture, used by
`getLevelPrefix`; `none` also covers the JS `|| null` collapse of an
empty capture).  They live in the external `@openmeteo/mapbox-layer`
package and are opaque to this repository, so they are parameters of
every definition that uses them. -/
structure LevelPatterns where
  hasLevels : String → Bool
  levelPrefixOf : String → Option String

/-- One `{ value, label }` entry, as in the external `variableOptions`
table and in the derived level groups. -/
structure VarOption where
  value : String
  label : String
deriving DecidableEq

/-- Embeds the entry construction inside `levelGroupsList`:
`variableOptions.find((v) => v.value === mjVariable) || { value: mjVariable, label: mjVariable }`. -/
def findOption (opts : List VarOption) (mjVariable : String) : VarOption :=
  match opts.find? (fun v => v.value == mjVariable) with
  | some o => o
  | none => ⟨mjVariable, mjVariable⟩

/-- Loop body of `variableList`: scalars are appended verbatim; a
group prefix is appended only if not already present in the list. -/
def variableListStep (P : LevelPatterns) (vlist : List String) (mjVariable : String) :
    List String :=
  if P.hasLevels mjVariable then
    match P.levelPrefixOf mjVariable with
    | some pfx => if pfx ∈ vlist then vlist else vlist ++ [pfx]
    | none => vlist
  else vlist ++ [mjVariable]

/-- Embeds `variableList` (the scalar/group list of the classifier),
applied to the variable list of the current metadata document
(`metaJson = null` yields the empty list, hence `[]` here). -/
def variableList (P : LevelPatterns) (vars : List String) : List String :=
  vars.foldl (variableListStep P) []

/-- `groups[pfx].push(e)`, creating the key at the end on first use —
a JS object with insertion-ordered keys, as an association list. -/
def insertGroup (groups : List (String × List VarOption)) (pfx : String) (e : VarOption) :
    List (String × List VarOption) :=
  match groups with
  | [] => [(pfx, [e])]
  | (q, es) :: rest =>
    if q = pfx then (q, es ++ [e]) :: rest else (q, es) :: insertGroup rest pfx e

/-- `groups[k]` on the association-list embedding of the JS object. -/
def lookupGroup (groups : List (String × List VarOption)) (k : String) :
    Option (List VarOption) :=
  match groups with
  | [] => none
  | (q, es) :: rest => if q = k then some es else lookupGroup rest k

/-- Loop body of `levelGroupsList`. -/
def levelGroupsStep (P : LevelPatterns) (opts : List VarOption)
    (groups : List (String × List VarOption)) (mjVariable : String) :
    List (String × List VarOption) :=
  if P.hasLevels mjVariable then
    match P.levelPrefixOf mjVariable with
    | some pfx => insertGroup groups pfx (findOption opts mjVariable)
    | none => groups
  else groups

/-- Embeds `levelGroupsList`: the derived LevelGroup mapping
(`metaJson = null` yields the empty record, hence `[]` here). -/
def levelGroupsList (P : LevelPatterns) (opts : List VarOption) (vars : List String) :
    List (String × List VarOption) :=
  vars.foldl (levelGroupsStep P opts) []

/-- The metadata document: `{ reference_time, variables }`.
`reference_time` is kept as the raw ISO string (its `Date` parse is
never inspected by the logic under verification). -/
structure DomainMetaDataJson where
  reference_time : String
  vars : List String
deriving DecidableEq

/-- Milliseconds per hour. -/
def msPerHour : Nat := 3600000

/-- Embeds the `selectedTime` initializer
`now.setUTCHours(now.getUTCHours() + 1, 0, 0, 0)` on an epoch-millisecond
clock: zeroing minutes/seconds/milliseconds and bumping the UTC hour by
one is exactly "round down to the hour, then add one hour" (the hour
24 case rolls into the next day on both sides). -/
def nextWholeHour (nowMs : Nat) : Nat :=
  (nowMs / msPerHour + 1) * msPerHour

/-- The React state relevant to the selection logic: `loading`,
`domain`, `variable` (as `varname`; `none` models the JS `undefined`),
`metaJson`, `modelRun` (kept as the raw `reference_time` string) and the
session-constant `selectedTime` (epoch milliseconds). -/
structure SelectionState where
  loading : Bool
  domain : String
  varname : Option String
  metaJson : Option DomainMetaDataJson
  modelRun : Option String
  selectedTime : Nat
deriving DecidableEq

/-- The variable list the derivations read: `metaJson.variables`, or
`[]` while no document is loaded (the `if (!metaJson) return` guards). -/
def metaVars (s : SelectionState) : List String :=
  match s.metaJson with
  | some m => m.vars
  | none => []

/-- The `useState` initial values: loading, hard-coded `dwd_icon` /
`temperature_2m`, no document, and the rounded-up start-of-session
display time. -/
def initialState (nowMs : Nat) : SelectionState :=
  { loading := true, domain := "dwd_icon", varname := some "temperature_2m",
    metaJson := none, modelRun := none, selectedTime := nextWholeHour nowMs }

/-- Embeds the state outcome of `initMap`: on a successful metadata
fetch the document and model run are stored; on any failure (metadata or
style fetch) the catch clears the loading flag and touches nothing else.
The hard-coded default variable is never reconciled with the document. -/
def initMapLoad (s : SelectionState) (fetched : Option DomainMetaDataJson) : SelectionState :=
  match fetched with
  | some meta =>
    { s with metaJson := some meta, modelRun := some meta.reference_time, loading := false }
  | none => { s with loading := false }

/-- Embeds the closest-match fallback inside `handleDomainChange`:
`meta.vars[0]`, overridden by the first entry extending the old
variable's group prefix when there is one (`none` models the JS
`undefined` read of `[0]` on an empty list). -/
def similarVariable (P : LevelPatterns) (oldVar : String) (vlist : List String) :
    Option String :=
  match P.levelPrefixOf oldVar with
  | some pfx =>
    match vlist.find? (fun v => jsStartsWith v pfx) with
    | some v => some v
    | none => vlist.head?
  | none => vlist.head?

/-- Embeds `handleDomainChange` as one transition, with the fetch
outcome passed in.  `setDomain(newDomain)` runs before the fetch, so the
domain is updated even on the failure path; `finally` clears `loading`.
In the `varname = none` corner the JS `getLevelPrefix(undefined)` throws
and the catch leaves the variable untouched. -/
def handleDomainChange (P : LevelPatterns) (s : SelectionState) (newDomain : String)
    (fetched : Option DomainMetaDataJson) : SelectionState :=
  match fetched with
  | none => { s with domain := newDomain, loading := false }
  | some meta =>
    let s1 := { s with
      domain := newDomain, metaJson := some meta, modelRun := some meta.reference_time }
    match s.varname with
    | some v =>
      if v ∈ meta.vars then { s1 with loading := false }
      else { s1 with varname := similarVariable P v meta.vars, loading := false }
    | none => { s1 with loading := false }

/-- The default-level condition inside `handleVariableChange`:
`level.value.includes('2m') || level.value.includes('10m') || level.value.includes('100m')`. -/
def metricMatch (value : String) : Bool :=
  includesStr value "2m" || includesStr value "10m" || includesStr value "100m"

/-- The `for...break` scan of `handleVariableChange`: the first entry
whose value matches `metricMatch`, else the initial `levels[0].value`
passed in as `defaultLevel`. -/
def pickDefaultLevel : List VarOption → String → String
  | [], defaultLevel => defaultLevel
  | level :: rest, defaultLevel =>
    if metricMatch level.value then level.value else pickDefaultLevel rest defaultLevel

/-- Embeds `handleVariableChange`: a selector naming a level group picks
that group's default member; anything else is stored directly.  (The
`some []` branch is unreachable — derived groups are never empty — and
is mapped to the direct store.) -/
def handleVariableChange (P : LevelPatterns) (opts : List VarOption)
    (s : SelectionState) (newVariable : String) : SelectionState :=
  match lookupGroup (levelGroupsList P opts (metaVars s)) newVariable with
  | some (l0 :: rest) => { s with varname := some (pickDefaultLevel (l0 :: rest) l0.value) }
  | some [] => { s with varname := some newVariable }
  | none => { s with varname := some newVariable }

/-- Embeds `handleLevelChange`: unconditionally store the new level. -/
def handleLevelChange (s : SelectionState) (newLevel : String) : SelectionState :=
  { s with varname := some newLevel }

/-- Embeds `currentLevelGroup`: the current variable's group prefix,
provided the external `levelGroupVariables` table (`lgVars`) lists it. -/
def currentLevelGroup (P : LevelPatterns) (lgVars : List String)
    (varname : Option String) : Option String :=
  match varname with
  | some v =>
    match P.levelPrefixOf v with
    | some pfx => if pfx ∈ lgVars then some pfx else none
    | none => none
  | none => none

/-- Embeds `currentLevels`: the entries of the current level group, or
`[]` when there is none. -/
def currentLevels (P : LevelPatterns) (opts : List VarOption) (lgVars : List String)
    (s : SelectionState) : List VarOption :=
  match currentLevelGroup P lgVars s.varname with
  | some g =>
    match lookupGroup (levelGroupsList P opts (metaVars s)) g with
    | some es => es
    | none => []
  | none => []

/-- The states the session can reach: the startup transition with an
arbitrary fetch outcome, followed by any sequence of the three handlers
with arbitrary arguments and fetch outcomes. -/
inductive Reachable (P : LevelPatterns) (opts : List VarOption) (nowMs : Nat) :
    SelectionState → Prop where
  | init (fetched : Option DomainMetaDataJson) :
      Reachable P opts nowMs (initMapLoad (initialState nowMs) fetched)
  | domainStep (s : SelectionState) (newDomain : String)
      (fetched : Option DomainMetaDataJson) :
      Reachable P opts nowMs s →
      Reachable P opts nowMs (handleDomainChange P s newDomain fetched)
  | varStep (s : SelectionState) (newVariable : String) :
      Reachable P opts nowMs s →
      Reachable P opts nowMs (handleVariableChange P opts s newVariable)
  | levelStep (s : SelectionState) (newLevel : String) :
      Reachable P opts nowMs s →
      Reachable P opts nowMs (handleLevelChange s newLevel)

/-- Reachability under the environment assumptions the UI provides:
the initial document carries the hard-coded default variable, every
successfully fetched document has a nonempty variable list, variable
selectors come from the derived scalar/group list, and level selectors
come from the currently offered level entries. -/
inductive ReachableOK (P : LevelPatterns) (opts : List VarOption) (lgVars : List String)
    (nowMs : Nat) : SelectionState → Prop where
  | initFail : ReachableOK P opts lgVars nowMs (initMapLoad (initialState nowMs) none)
  | initOk (meta : DomainMetaDataJson) (h : "temperature_2m" ∈ meta.vars) :
      ReachableOK P opts lgVars nowMs (initMapLoad (initialState nowMs) (some meta))
  | domainFail (s : SelectionState) (newDomain : String) :
      ReachableOK P opts lgVars nowMs s →
      ReachableOK P opts lgVars nowMs (handleDomainChange P s newDomain none)
  | domainOk (s : SelectionState) (newDomain : String) (meta : DomainMetaDataJson)
      (h : meta.vars ≠ []) :
      ReachableOK P opts lgVars nowMs s →
      ReachableOK P opts lgVars nowMs (handleDomainChange P s newDomain (some meta))
  | varStep (s : SelectionState) (newVariable : String)
      (h : newVariable ∈ variableList P (metaVars s)) :
      ReachableOK P opts lgVars nowMs s →
      ReachableOK P opts lgVars nowMs (handleVariableChange P opts s newVariable)
  | levelStep (s : SelectionState) (newLevel : String)
      (h : newLevel ∈ (currentLevels P opts lgVars s).map VarOption.value) :
      ReachableOK P opts lgVars nowMs s →
      ReachableOK P opts lgVars nowMs (handleLevelChange s newLevel)

/-- Modelled from the spec: the default-member preference order §4.2
states for `changeVariable` on a level group — the first entry whose
value contains `"2m"`, else the first containing `"10m"`, else the
first containing `"100m"`, else the group's first entry.  Stated here
only to compare against the implemented scan. -/
def specDefaultMember (levels : List VarOption) : Option String :=
  match levels.find? (fun l => includesStr l.value "2m") with
  | some l => some l.value
  | none =>
    match levels.find? (fun l => includesStr l.value "10m") with
    | some l => some l.value
    | none =>
      match levels.find? (fun l => includesStr l.value "100m") with
      | some l => some l.value
      | none => levels.head?.map VarOption.value

/-- The membership condition of a level group: the names the classifier
routes into the group keyed `p`. -/
def groupPred (P : LevelPatterns) (p v : String) : Bool :=
  P.hasLevels v && (P.levelPrefixOf v == some p)

/-- A concrete instantiation of the opaque level patterns, used only in
closed counterexamples and witnesses: `w_10m` and `w_2m` are
level-bearing and share the group `w`; everything else is scalar. -/
def cPat : LevelPatterns where
  hasLevels v := v == "w_10m" || v == "w_2m"
  levelPrefixOf v := if v == "w_10m" || v == "w_2m" then some "w" else none

/-- A concrete ready state whose document carries a level group in which
a `10m` entry precedes a `2m` entry. -/
def c2State : SelectionState :=
  { loading := false, domain := "dwd_icon", varname := some "w_2m",
    metaJson := some ⟨"2024-05-01T06:00:00Z", ["w_10m", "w_2m"]⟩,
    modelRun := none, selectedTime := 0 }

/-- A concrete metadata document lacking the hard-coded default
variable `temperature_2m`. -/
def c5BadDoc : DomainMetaDataJson := ⟨"2024-05-01T06:00:00Z", ["rain"]⟩

/-- A concrete metadata document containing the default variable. -/
def c5GoodDoc : DomainMetaDataJson :=
  ⟨"2024-05-01T06:00:00Z", ["temperature_2m", "w_2m"]⟩

/-- A concrete ready state used by the domain-change witnesses. -/
def c4State : SelectionState :=
  { loading := false, domain := "dwd_icon", varname := some "w_2m",
    metaJson := some ⟨"2024-05-01T06:00:00Z", ["w_2m"]⟩,
    modelRun := none, selectedTime := 0 }

/-- A concrete replacement document without `w_2m` but with a name
extending the group `w`. -/
def c4Doc : DomainMetaDataJson := ⟨"2024-05-02T00:00:00Z", ["rain", "w_10m"]⟩

/-- C3: `buildUrl` on domain `dwd_icon_d2`, variable `temperature_2m`,
model run 2024-05-01T06:00Z and display time 2024-05-01T07:00Z produces
exactly the expected string, with two-digit zero-padded UTC fields. -/
theorem c3_buildUrl_concrete :
    getOMUrl "dwd_icon_d2" "temperature_2m"
      ⟨2024, 4, 1, 6, 0⟩ ⟨2024, 4, 1, 7, 0⟩ =
    "https://s3.servert.ch/data_spatial/dwd_icon_d2/2024/05/01/0600Z/2024-05-01T0700.om?variable=temperature_2m" := by
  decide

/-- C8: the base endpoint is a static rule on the domain identifier
alone (`dwd_icon` institutional, default otherwise); both `getOMUrl`
and the metadata fetch URL factor through that one rule, and
`gfs_global` selects the default endpoint, not the institutional one. -/
theorem c8_endpoint_rule :
    (∀ d v mr st, getOMUrl d v mr st =
      baseEndpoint d ++ "/data_spatial/" ++ d ++ "/" ++ fmtModelRun mr ++ "/"
        ++ fmtSelectedTime st ++ ".om" ++ "?variable=" ++ v) ∧
    (∀ d, fetchMetaDataUrl d =
      baseEndpoint d ++ "/data_spatial/" ++ d ++ "/latest.json") ∧
    baseEndpoint "gfs_global" = "https://map-tiles.open-meteo.com" ∧
    baseEndpoint "gfs_global" ≠ "https://s3.servert.ch" := by
  refine ⟨fun d v mr st => ?_, fun d => ?_, by decide, by decide⟩
  · simp only [getOMUrl, baseEndpoint]
  · simp only [fetchMetaDataUrl, baseEndpoint]

theorem findOption_value (opts : List VarOption) (v : String) :
    (findOption opts v).value = v := by
  unfold findOption
  cases h : opts.find? (fun o => o.value == v) with
  | none => rfl
  | some o =>
    have hp := List.find?_some h
    exact eq_of_beq hp

theorem lookupGroup_insertGroup (gs : List (String × List VarOption)) (p k : String)
    (e : VarOption) :
    lookupGroup (insertGroup gs p e) k =
      if p = k then some (((lookupGroup gs p).getD []) ++ [e]) else lookupGroup gs k := by
  induction gs with
  | nil =>
    by_cases hk : p = k <;> simp [insertGroup, lookupGroup, hk]
  | cons hd tl ih =>
    obtain ⟨q, es⟩ := hd
    by_cases hq : q = p
    · subst hq
      by_cases hk : q = k <;> simp [insertGroup, lookupGroup, hk]
    · by_cases hk : q = k
      · subst hk
        have hpk : ¬ p = q := fun h => hq h.symm
        simp [insertGroup, lookupGroup, hq, hpk]
      · simp [insertGroup, lookupGroup, hq, hk, ih]

theorem lookupGroup_foldl (P : LevelPatterns) (opts : List VarOption) (p : String)
    (vars : List String) :
    ∀ gs : List (String × List VarOption),
    lookupGroup (List.foldl (levelGroupsStep P opts) gs vars) p =
      match lookupGroup gs p with
      | some es => some (es ++ (vars.filter (groupPred P p)).map (findOption opts))
      | none =>
        match (vars.filter (groupPred P p)).map (findOption opts) with
        | [] => none
        | e :: es => some (e :: es) := by
  induction vars with
  | nil =>
    intro gs
    cases h : lookupGroup gs p <;> simp [h]
  | cons v rest ih =>
    intro gs
    rw [List.foldl_cons, ih]
    by_cases hl : P.hasLevels v
    · cases hpf : P.levelPrefixOf v with
      | none =>
        have hg : groupPred P p v = false := by simp [groupPred, hpf]
        simp [levelGroupsStep, hl, hpf, List.filter_cons, hg]
      | some q =>
        by_cases hqp : q = p
        · subst hqp
          have hg : groupPred P q v = true := by simp [groupPred, hl, hpf]
          have hstep : levelGroupsStep P opts gs v = insertGroup gs q (findOption opts v) := by
            simp [levelGroupsStep, hl, hpf]
          rw [hstep, lookupGroup_insertGroup, if_pos rfl]
          cases h : lookupGroup gs q with
          | none => simp [List.filter_cons, hg, h]
          | some es => simp [List.filter_cons, hg, h, List.append_assoc]
        · have hg : groupPred P p v = false := by simp [groupPred, hpf, hqp]
          have hstep : levelGroupsStep P opts gs v = insertGroup gs q (findOption opts v) := by
            simp [levelGroupsStep, hl, hpf]
          rw [hstep, lookupGroup_insertGroup, if_neg hqp]
          simp [List.filter_cons, hg]
    · have hg : groupPred P p v = false := by simp [groupPred, hl]
      have hstep : levelGroupsStep P opts gs v = gs := by
        simp [levelGroupsStep, hl]
      simp [hstep, List.filter_cons, hg]

theorem lookupGroup_levelGroupsList (P : LevelPatterns) (opts : List VarOption)
    (vars : List String) (p : String) :
    lookupGroup (levelGroupsList P opts vars) p =
      match (vars.filter (groupPred P p)).map (findOption opts) with
      | [] => none
      | e :: es => some (e :: es) := by
  have h := lookupGroup_foldl P opts p vars []
  simpa [levelGroupsList, lookupGroup] using h

theorem lookupGroup_eq_some (P : LevelPatterns) (opts : List VarOption)
    (vars : List String) (p : String) (es : List VarOption)
    (h : lookupGroup (levelGroupsList P opts vars) p = some es) :
    es = (vars.filter (groupPred P p)).map (findOption opts) ∧ es ≠ [] := by
  rw [lookupGroup_levelGroupsList] at h
  cases hf : (vars.filter (groupPred P p)).map (findOption opts) with
  | nil => rw [hf] at h; cases h
  | cons e es' =>
    rw [hf] at h
    have h2 : e :: es' = es := by injection h
    subst h2
    exact ⟨rfl, by simp⟩

theorem group_values (P : LevelPatterns) (opts : List VarOption)
    (vars : List String) (p : String) (es : List VarOption)
    (h : lookupGroup (levelGroupsList P opts vars) p = some es) :
    es.map VarOption.value = vars.filter (groupPred P p) := by
  obtain ⟨he, -⟩ := lookupGroup_eq_some P opts vars p es h
  subst he
  rw [List.map_map]
  have : ∀ x : String, (VarOption.value ∘ findOption opts) x = x := fun x =>
    findOption_value opts x
  calc (vars.filter (groupPred P p)).map (VarOption.value ∘ findOption opts)
      = (vars.filter (groupPred P p)).map id := List.map_congr_left (fun x _ => this x)
    _ = vars.filter (groupPred P p) := List.map_id _

theorem scalars_sublist_foldl (P : LevelPatterns) :
    ∀ (vars acc : List String),
      List.Sublist (acc ++ vars.filter (fun x => !P.hasLevels x))
        (List.foldl (variableListStep P) acc vars) := by
  intro vars
  induction vars with
  | nil => intro acc; simp
  | cons v rest ih =>
    intro acc
    rw [List.foldl_cons]
    by_cases hl : P.hasLevels v
    · have hf : (v :: rest).filter (fun x => !P.hasLevels x) =
          rest.filter (fun x => !P.hasLevels x) := by
        simp [List.filter_cons, hl]
      rw [hf]
      cases hpf : P.levelPrefixOf v with
      | none =>
        rw [show variableListStep P acc v = acc from by simp [variableListStep, hl, hpf]]
        exact ih acc
      | some q =>
        by_cases hm : q ∈ acc
        · rw [show variableListStep P acc v = acc from by
            simp [variableListStep, hl, hpf, hm]]
          exact ih acc
        · rw [show variableListStep P acc v = acc ++ [q] from by
            simp [variableListStep, hl, hpf, hm]]
          have h1 : List.Sublist (acc ++ rest.filter (fun x => !P.hasLevels x))
              ((acc ++ [q]) ++ rest.filter (fun x => !P.hasLevels x)) := by
            rw [List.append_assoc]
            exact List.Sublist.append_left (List.sublist_cons_self q _) acc
          exact h1.trans (ih (acc ++ [q]))
    · have hf : (v :: rest).filter (fun x => !P.hasLevels x) =
          v :: rest.filter (fun x => !P.hasLevels x) := by
        simp [List.filter_cons, hl]
      rw [hf, show variableListStep P acc v = acc ++ [v] from by simp [variableListStep, hl]]
      simpa [List.append_assoc] using ih (acc ++ [v])

theorem mem_variableList_foldl (P : LevelPatterns) :
    ∀ (vars acc : List String) (nv : String),
      nv ∈ List.foldl (variableListStep P) acc vars →
      nv ∈ acc ∨ (nv ∈ vars ∧ P.hasLevels nv = false) ∨
        ∃ w, w ∈ vars ∧ P.hasLevels w = true ∧ P.levelPrefixOf w = some nv := by
  intro vars
  induction vars with
  | nil =>
    intro acc nv h
    simp only [List.foldl_nil] at h
    exact Or.inl h
  | cons v rest ih =>
    intro acc nv h
    rw [List.foldl_cons] at h
    rcases ih _ nv h with hacc | ⟨hm, hs⟩ | ⟨w, hw, h1, h2⟩
    · by_cases hl : P.hasLevels v
      · cases hpf : P.levelPrefixOf v with
        | none =>
          rw [show variableListStep P acc v = acc from by
            simp [variableListStep, hl, hpf]] at hacc
          exact Or.inl hacc
        | some q =>
          by_cases hmq : q ∈ acc
          · rw [show variableListStep P acc v = acc from by
              simp [variableListStep, hl, hpf, hmq]] at hacc
            exact Or.inl hacc
          · rw [show variableListStep P acc v = acc ++ [q] from by
              simp [variableListStep, hl, hpf, hmq]] at hacc
            rcases List.mem_append.1 hacc with h3 | h3
            · exact Or.inl h3
            · have hq : nv = q := by simpa using h3
              subst hq
              exact Or.inr (Or.inr ⟨v, List.mem_cons_self v rest, hl, hpf⟩)
      · rw [show variableListStep P acc v = acc ++ [v] from by
          simp [variableListStep, hl]] at hacc
        rcases List.mem_append.1 hacc with h3 | h3
        · exact Or.inl h3
        · have hv : nv = v := by simpa using h3
          subst hv
          exact Or.inr (Or.inl ⟨List.mem_cons_self nv rest, by simpa using hl⟩)
    · exact Or.inr (Or.inl ⟨List.mem_cons_of_mem _ hm, hs⟩)
    · exact Or.inr (Or.inr ⟨w, List.mem_cons_of_mem _ hw, h1, h2⟩)

theorem count_variableList_foldl (P : LevelPatterns) (p : String) :
    ∀ (vars acc : List String),
      (∀ v ∈ vars, P.hasLevels v = false → v ≠ p) →
      List.count p (List.foldl (variableListStep P) acc vars) =
        (if p ∈ acc then List.count p acc
         else if vars.filter (groupPred P p) = [] then List.count p acc
         else List.count p acc + 1) := by
  intro vars
  induction vars with
  | nil =>
    intro acc _
    simp
  | cons v rest ih =>
    intro acc hh
    have hhrest : ∀ u ∈ rest, P.hasLevels u = false → u ≠ p :=
      fun u hu => hh u (List.mem_cons_of_mem _ hu)
    rw [List.foldl_cons]
    by_cases hl : P.hasLevels v
    · cases hpf : P.levelPrefixOf v with
      | none =>
        have hg : groupPred P p v = false := by simp [groupPred, hpf]
        rw [show variableListStep P acc v = acc from by simp [variableListStep, hl, hpf]]
        rw [ih acc hhrest]
        simp [List.filter_cons, hg]
      | some q =>
        by_cases hq : q = p
        · subst hq
          have hg : groupPred P q v = true := by
            simp only [groupPred]
            rw [hpf]
            simp [hl]
          by_cases hm : q ∈ acc
          · rw [show variableListStep P acc v = acc from by
              simp [variableListStep, hl, hpf, hm]]
            rw [ih acc hhrest]
            simp [List.filter_cons, hg, hm]
          · rw [show variableListStep P acc v = acc ++ [q] from by
              simp [variableListStep, hl, hpf, hm]]
            rw [ih (acc ++ [q]) hhrest]
            have hcount : List.count q (acc ++ [q]) = List.count q acc + 1 := by
              simp
            rw [hcount]
            simp [List.filter_cons, hg, hm]
        · have hg : groupPred P p v = false := by
            simp only [groupPred]
            rw [hpf]
            simp [hq]
          by_cases hm : q ∈ acc
          · rw [show variableListStep P acc v = acc from by
              simp [variableListStep, hl, hpf, hm]]
            rw [ih acc hhrest]
            simp [List.filter_cons, hg]
          · rw [show variableListStep P acc v = acc ++ [q] from by
              simp [variableListStep, hl, hpf, hm]]
            rw [ih (acc ++ [q]) hhrest]
            have hiff : p ∈ acc ++ [q] ↔ p ∈ acc := by
              simp only [List.mem_append, List.mem_singleton]
              constructor
              · rintro (h3 | h3)
                · exact h3
                · exact absurd h3.symm hq
              · exact Or.inl
            have hcount : List.count p (acc ++ [q]) = List.count p acc := by
              have hb : (q == p) = false := by simp [hq]
              simp [List.count_append, List.count_singleton, hb]
            rw [hcount]
            simp [List.filter_cons, hg, hiff]
    · have hg : groupPred P p v = false := by simp [groupPred, hl]
      have hvp : v ≠ p := hh v (List.mem_cons_self v rest) (by simpa using hl)
      rw [show variableListStep P acc v = acc ++ [v] from by simp [variableListStep, hl]]
      rw [ih (acc ++ [v]) hhrest]
      have hiff : p ∈ acc ++ [v] ↔ p ∈ acc := by
        simp only [List.mem_append, List.mem_singleton]
        constructor
        · rintro (h3 | h3)
          · exact h3
          · exact absurd h3.symm hvp
        · exact Or.inl
      have hcount : List.count p (acc ++ [v]) = List.count p acc := by
        have hb : (v == p) = false := by simp [hvp]
        simp [List.count_append, List.count_singleton, hb]
      rw [hcount]
      simp [List.filter_cons, hg, hiff]

theorem find?_split {α : Type} (f : α → Bool) :
    ∀ (l : List α) (w : α), l.find? f = some w →
      ∃ l1 l2, l = l1 ++ w :: l2 ∧ f w = true ∧ ∀ u ∈ l1, f u = false := by
  intro l
  induction l with
  | nil => intro w h; cases h
  | cons a rest ih =>
    intro w h
    by_cases ha : f a
    · rw [List.find?_cons_of_pos _ ha] at h
      injection h with h
      subst h
      exact ⟨[], rest, rfl, ha, by simp⟩
    · rw [List.find?_cons_of_neg _ ha] at h
      obtain ⟨l1, l2, heq, hw, hfu⟩ := ih w h
      refine ⟨a :: l1, l2, by rw [heq]; rfl, hw, ?_⟩
      intro u hu
      rcases List.mem_cons.1 hu with rfl | hu2
      · simpa using ha
      · exact hfu u hu2

theorem pickDefaultLevel_spec :
    ∀ (levels : List VarOption) (dflt : String),
      (∃ l1 l l2, levels = l1 ++ l :: l2 ∧ (∀ u ∈ l1, metricMatch u.value = false) ∧
        metricMatch l.value = true ∧ pickDefaultLevel levels dflt = l.value) ∨
      ((∀ u ∈ levels, metricMatch u.value = false) ∧ pickDefaultLevel levels dflt = dflt) := by
  intro levels
  induction levels with
  | nil => intro dflt; exact Or.inr ⟨by simp, rfl⟩
  | cons a rest ih =>
    intro dflt
    by_cases ha : metricMatch a.value
    · exact Or.inl ⟨[], a, rest, rfl, by simp, ha, by simp [pickDefaultLevel, ha]⟩
    · have hpick : pickDefaultLevel (a :: rest) dflt = pickDefaultLevel rest dflt := by
        simp [pickDefaultLevel, ha]
      rcases ih dflt with ⟨l1, l, l2, heq, hl1, hl, hres⟩ | ⟨hall, hres⟩
      · have hcons : ∀ u ∈ a :: l1, metricMatch u.value = false := by
          intro u hu
          rcases List.mem_cons.1 hu with rfl | hu2
          · simpa using ha
          · exact hl1 u hu2
        exact Or.inl ⟨a :: l1, l, l2, by rw [heq]; rfl, hcons, hl, by rw [hpick, hres]⟩
      · have hcons : ∀ u ∈ a :: rest, metricMatch u.value = false := by
          intro u hu
          rcases List.mem_cons.1 hu with rfl | hu2
          · simpa using ha
          · exact hall u hu2
        exact Or.inr ⟨hcons, by rw [hpick, hres]⟩

theorem pickDefaultLevel_mem :
    ∀ (levels : List VarOption) (dflt : String),
      pickDefaultLevel levels dflt ∈ levels.map VarOption.value ∨
        pickDefaultLevel levels dflt = dflt := by
  intro levels
  induction levels with
  | nil => intro dflt; exact Or.inr rfl
  | cons a rest ih =>
    intro dflt
    by_cases ha : metricMatch a.value
    · simp [pickDefaultLevel, ha]
    · rw [show pickDefaultLevel (a :: rest) dflt = pickDefaultLevel rest dflt from by
        simp [pickDefaultLevel, ha]]
      rcases ih dflt with hm | he
      · exact Or.inl (by simp [hm])
      · exact Or.inr he

theorem handleDomainChange_some (P : LevelPatterns) (s : SelectionState) (nd : String)
    (meta : DomainMetaDataJson) (v : String) (hv : s.varname = some v) :
    handleDomainChange P s nd (some meta) =
      (if v ∈ meta.vars then
        { s with domain := nd, metaJson := some meta,
                 modelRun := some meta.reference_time, loading := false }
      else
        { s with domain := nd, metaJson := some meta,
                 modelRun := some meta.reference_time,
                 varname := similarVariable P v meta.vars, loading := false }) := by
  unfold handleDomainChange
  rw [hv]

theorem handleDomainChange_selectedTime (P : LevelPatterns) (s : SelectionState)
    (nd : String) (fetched : Option DomainMetaDataJson) :
    (handleDomainChange P s nd fetched).selectedTime = s.selectedTime := by
  unfold handleDomainChange
  cases fetched with
  | none => rfl
  | some meta =>
    cases hv : s.varname with
    | none => rfl
    | some v => by_cases h : v ∈ meta.vars <;> simp [h]

theorem handleVariableChange_selectedTime (P : LevelPatterns) (opts : List VarOption)
    (s : SelectionState) (nv : String) :
    (handleVariableChange P opts s nv).selectedTime = s.selectedTime := by
  unfold handleVariableChange
  cases h : lookupGroup (levelGroupsList P opts (metaVars s)) nv with
  | none => rfl
  | some levels => cases levels <;> rfl

theorem handleVariableChange_varname (P : LevelPatterns) (opts : List VarOption)
    (s : SelectionState) (nv : String) (levels : List VarOption) (l0 : VarOption)
    (rest : List VarOption)
    (h : lookupGroup (levelGroupsList P opts (metaVars s)) nv = some levels)
    (hl : levels = l0 :: rest) :
    (handleVariableChange P opts s nv).varname =
      some (pickDefaultLevel (l0 :: rest) l0.value) := by
  subst hl
  unfold handleVariableChange
  rw [h]

theorem similarVariable_mem (P : LevelPatterns) (v : String) (vl : List String)
    (hne : vl ≠ []) :
    ∃ w, similarVariable P v vl = some w ∧ w ∈ vl := by
  cases hpf : P.levelPrefixOf v with
  | none =>
    cases vl with
    | nil => exact absurd rfl hne
    | cons a rest =>
      exact ⟨a, by simp [similarVariable, hpf], List.mem_cons_self a rest⟩
  | some pfx =>
    cases hfind : vl.find? (fun u => jsStartsWith u pfx) with
    | some w =>
      exact ⟨w, by simp [similarVariable, hpf, hfind], List.mem_of_find?_eq_some hfind⟩
    | none =>
      cases vl with
      | nil => exact absurd rfl hne
      | cons a rest =>
        exact ⟨a, by simp [similarVariable, hpf, hfind], List.mem_cons_self a rest⟩

theorem lookupGroup_ne_none (P : LevelPatterns) (opts : List VarOption)
    (vars : List String) (p w : String) (hw : w ∈ vars) (hg : groupPred P p w = true) :
    lookupGroup (levelGroupsList P opts vars) p ≠ none := by
  rw [lookupGroup_levelGroupsList]
  have hmem : w ∈ vars.filter (groupPred P p) := List.mem_filter.2 ⟨hw, hg⟩
  cases hf : vars.filter (groupPred P p) with
  | nil => rw [hf] at hmem; cases hmem
  | cons e es => simp

theorem currentLevels_values_mem (P : LevelPatterns) (opts : List VarOption)
    (lgVars : List String) (s : SelectionState) :
    ∀ x ∈ (currentLevels P opts lgVars s).map VarOption.value, x ∈ metaVars s := by
  intro x hx
  unfold currentLevels at hx
  split at hx
  · rename_i g heq
    split at hx
    · rename_i es heq2
      rw [group_values P opts (metaVars s) g es heq2] at hx
      exact List.mem_of_mem_filter hx
    · simp at hx
  · simp at hx

/-- C1 (amended): on a domain change whose metadata fetch fails, the
variable, document, model run and display time are unchanged and the
loading flag is cleared — but the domain has already been set to the
requested new domain (the source calls `setDomain` before the fetch and
never rolls it back), so the full SelectionState is not preserved. -/
theorem c1_fetch_failure_state (P : LevelPatterns) (s : SelectionState)
    (newDomain : String) :
    (handleDomainChange P s newDomain none).varname = s.varname ∧
    (handleDomainChange P s newDomain none).metaJson = s.metaJson ∧
    (handleDomainChange P s newDomain none).modelRun = s.modelRun ∧
    (handleDomainChange P s newDomain none).selectedTime = s.selectedTime ∧
    (handleDomainChange P s newDomain none).loading = false ∧
    (handleDomainChange P s newDomain none).domain = newDomain :=
  ⟨rfl, rfl, rfl, rfl, rfl, rfl⟩

/-- C1 counterexample: from the freshly initialised state (domain
`dwd_icon`), a failing `changeDomain("gfs_global")` leaves the domain
equal to `gfs_global`, not to its pre-invocation value `dwd_icon` — the
SelectionState is mutated on the failure path. -/
theorem c1_counterexample :
    (initMapLoad (initialState 0) none).domain = "dwd_icon" ∧
    (handleDomainChange cPat (initMapLoad (initialState 0) none)
      "gfs_global" none).domain = "gfs_global" ∧
    ("gfs_global" : String) ≠ "dwd_icon" :=
  ⟨rfl, rfl, by decide⟩

/-- C7: every input name that is not level-bearing is placed verbatim,
in input order, in the scalar/group list (the non-level names form a
sublist of `variableList` in source order), and such a name occurs in
no derived level group. -/
theorem c7_scalar_names (P : LevelPatterns) (opts : List VarOption) (vars : List String) :
    List.Sublist (vars.filter (fun x => !P.hasLevels x)) (variableList P vars) ∧
    ∀ v ∈ vars, P.hasLevels v = false →
      ∀ p es, lookupGroup (levelGroupsList P opts vars) p = some es →
        v ∉ es.map VarOption.value := by
  constructor
  · have h := scalars_sublist_foldl P vars []
    simpa [variableList] using h
  · intro v _ hs p es hes hmem
    rw [group_values P opts vars p es hes] at hmem
    have hgp := List.of_mem_filter hmem
    simp only [groupPred] at hgp
    rw [hs] at hgp
    simp at hgp

/-- C7 witness: on a concrete instantiation the scalar `temp` is
sublisted into the scalar/group list and absent from the `w` group. -/
theorem c7_scalar_names_witness :
    ("temp" : String) ∉ List.map VarOption.value [⟨"w_2m", "w_2m"⟩] :=
  (c7_scalar_names cPat [] ["temp", "w_2m"]).2 "temp" (by decide) (by decide)
    "w" [⟨"w_2m", "w_2m"⟩] (by decide)

/-- C10: whenever the selector names a key of the derived level-group
mapping, `changeVariable` stores some member of that group — the scan
only inspects the group's entries and the fallback is the group's first
entry, so the result can never leave the group. -/
theorem c10_group_selection (P : LevelPatterns) (opts : List VarOption)
    (s : SelectionState) (nv : String) (levels : List VarOption)
    (h : lookupGroup (levelGroupsList P opts (metaVars s)) nv = some levels) :
    ∃ w, (handleVariableChange P opts s nv).varname = some w ∧
      w ∈ levels.map VarOption.value := by
  obtain ⟨hes, hne⟩ := lookupGroup_eq_some P opts (metaVars s) nv levels h
  cases levels with
  | nil => exact absurd rfl hne
  | cons l0 rest =>
    have hres := handleVariableChange_varname P opts s nv (l0 :: rest) l0 rest h rfl
    refine ⟨pickDefaultLevel (l0 :: rest) l0.value, hres, ?_⟩
    rcases pickDefaultLevel_mem (l0 :: rest) l0.value with hm | he
    · exact hm
    · rw [he]; simp

/-- C10 witness: selecting the group key `w` on a concrete state stores
a member of the `w` group. -/
theorem c10_group_selection_witness :
    ∃ w, (handleVariableChange cPat [] c2State "w").varname = some w ∧
      w ∈ List.map VarOption.value [⟨"w_10m", "w_10m"⟩, ⟨"w_2m", "w_2m"⟩] :=
  c10_group_selection cPat [] c2State "w"
    [⟨"w_10m", "w_10m"⟩, ⟨"w_2m", "w_2m"⟩] (by decide)

/-- C2 (amended): on a selector naming a level group, `changeVariable`
selects the first entry (in group order) whose value contains any of
the substrings `2m`, `10m` or `100m` — one flat scan, not the tiered
2m-then-10m-then-100m preference — and if no entry contains any of
them, the group's first entry.  A group with a `10m` entry and
otherwise only entries matching none of the substrings therefore still
selects the `10m` entry. -/
theorem c2_default_member (P : LevelPatterns) (opts : List VarOption)
    (s : SelectionState) (nv : String) (levels : List VarOption)
    (h : lookupGroup (levelGroupsList P opts (metaVars s)) nv = some levels) :
    (∃ l1 l l2, levels = l1 ++ l :: l2 ∧ (∀ u ∈ l1, metricMatch u.value = false) ∧
      metricMatch l.value = true ∧
      (handleVariableChange P opts s nv).varname = some l.value) ∨
    ((∀ u ∈ levels, metricMatch u.value = false) ∧
      ∃ l0 rest, levels = l0 :: rest ∧
        (handleVariableChange P opts s nv).varname = some l0.value) := by
  obtain ⟨hes, hne⟩ := lookupGroup_eq_some P opts (metaVars s) nv levels h
  cases levels with
  | nil => exact absurd rfl hne
  | cons l0 rest =>
    have hres := handleVariableChange_varname P opts s nv (l0 :: rest) l0 rest h rfl
    rcases pickDefaultLevel_spec (l0 :: rest) l0.value with
      ⟨l1, l, l2, heq, hu1, hu2, hu3⟩ | ⟨hu1, hu2⟩
    · exact Or.inl ⟨l1, l, l2, heq, hu1, hu2, by rw [hres, hu3]⟩
    · exact Or.inr ⟨hu1, l0, rest, rfl, by rw [hres, hu2]⟩

/-- C2 witness: on the concrete group `w` the selected default is its
first metric-matching entry. -/
theorem c2_default_member_witness :
    (∃ l1 l l2, ([⟨"w_10m", "w_10m"⟩, ⟨"w_2m", "w_2m"⟩] : List VarOption) =
      l1 ++ l :: l2 ∧ (∀ u ∈ l1, metricMatch u.value = false) ∧
      metricMatch l.value = true ∧
      (handleVariableChange cPat [] c2State "w").varname = some l.value) ∨
    ((∀ u ∈ ([⟨"w_10m", "w_10m"⟩, ⟨"w_2m", "w_2m"⟩] : List VarOption),
        metricMatch u.value = false) ∧
      ∃ l0 rest, ([⟨"w_10m", "w_10m"⟩, ⟨"w_2m", "w_2m"⟩] : List VarOption) = l0 :: rest ∧
        (handleVariableChange cPat [] c2State "w").varname = some l0.value) :=
  c2_default_member cPat [] c2State "w"
    [⟨"w_10m", "w_10m"⟩, ⟨"w_2m", "w_2m"⟩] (by decide)

/-- C2 counterexample: on the group `w` = [`w_10m`, `w_2m`] the claimed
tiered preference (first `2m` entry) demands `w_2m`, but the
implementation's single scan returns the earlier `w_10m`. -/
theorem c2_counterexample :
    lookupGroup (levelGroupsList cPat [] (metaVars c2State)) "w" =
      some [⟨"w_10m", "w_10m"⟩, ⟨"w_2m", "w_2m"⟩] ∧
    specDefaultMember [⟨"w_10m", "w_10m"⟩, ⟨"w_2m", "w_2m"⟩] = some "w_2m" ∧
    (handleVariableChange cPat [] c2State "w").varname = some "w_10m" ∧
    (some "w_10m" : Option String) ≠ some "w_2m" :=
  ⟨by decide, by decide, by decide, by decide⟩

/-- C4: a successful domain change keeps the current variable when the
new document still lists it; otherwise it selects the first entry (in
document order) extending the previous variable's group prefix when one
exists, and failing that the new document's first variable (index 0),
without error. -/
theorem c4_domain_change_success (P : LevelPatterns) (s : SelectionState)
    (newDomain : String) (meta : DomainMetaDataJson) (v : String)
    (hv : s.varname = some v) :
    (v ∈ meta.vars → (handleDomainChange P s newDomain (some meta)).varname = some v) ∧
    (v ∉ meta.vars → ∀ pfx, P.levelPrefixOf v = some pfx →
      (∀ w, meta.vars.find? (fun u => jsStartsWith u pfx) = some w →
        (handleDomainChange P s newDomain (some meta)).varname = some w ∧
        ∃ l1 l2, meta.vars = l1 ++ w :: l2 ∧ jsStartsWith w pfx = true ∧
          ∀ u ∈ l1, jsStartsWith u pfx = false) ∧
      (meta.vars.find? (fun u => jsStartsWith u pfx) = none →
        (handleDomainChange P s newDomain (some meta)).varname = meta.vars.head?)) ∧
    (v ∉ meta.vars → P.levelPrefixOf v = none →
      (handleDomainChange P s newDomain (some meta)).varname = meta.vars.head?) := by
  refine ⟨?_, ?_, ?_⟩
  · intro hin
    rw [handleDomainChange_some P s newDomain meta v hv, if_pos hin]
    exact hv
  · intro hnin pfx hpf
    refine ⟨fun w hw => ⟨?_, ?_⟩, fun hnone => ?_⟩
    · rw [handleDomainChange_some P s newDomain meta v hv, if_neg hnin]
      simp [similarVariable, hpf, hw]
    · obtain ⟨l1, l2, heq, hw2, hfu⟩ :=
        find?_split (fun u => jsStartsWith u pfx) meta.vars w hw
      exact ⟨l1, l2, heq, hw2, hfu⟩
    · rw [handleDomainChange_some P s newDomain meta v hv, if_neg hnin]
      simp [similarVariable, hpf, hnone]
  · intro hnin hpf
    rw [handleDomainChange_some P s newDomain meta v hv, if_neg hnin]
    simp [similarVariable, hpf]

/-- C4 witness: replacing the document of a state holding `w_2m` by one
without it selects the first prefix-sharing entry `w_10m`. -/
theorem c4_domain_change_success_witness :
    ("w_2m" : String) ∉ c4Doc.vars ∧
    (handleDomainChange cPat c4State "gfs_global" (some c4Doc)).varname =
      some "w_10m" := by
  constructor
  · decide
  · have h := (c4_domain_change_success cPat c4State "gfs_global" c4Doc "w_2m" rfl).2.1
      (by decide) "w" (by decide)
    exact (h.1 "w_10m" (by decide)).1

/-- C6: for a group key `p` that some level-bearing input maps to, and
provided no non-level-bearing input equals `p` (such a coincidence
would also append the name as a scalar), the derived mapping carries
under the single key `p` exactly the level-bearing names with that
group prefix, as entries in source order whose values are the names
themselves; `p` occurs exactly once in the scalar/group list; and every
level-bearing name with an extracted prefix lies in the group keyed by
its prefix and in no other. -/
theorem c6_grouping (P : LevelPatterns) (opts : List VarOption) (vars : List String)
    (p : String)
    (h1 : vars.filter (groupPred P p) ≠ [])
    (h2 : ∀ v ∈ vars, P.hasLevels v = false → v ≠ p) :
    lookupGroup (levelGroupsList P opts vars) p =
      some ((vars.filter (groupPred P p)).map (findOption opts)) ∧
    ((vars.filter (groupPred P p)).map (findOption opts)).map VarOption.value =
      vars.filter (groupPred P p) ∧
    List.count p (variableList P vars) = 1 ∧
    ∀ v ∈ vars, ∀ q, P.hasLevels v = true → P.levelPrefixOf v = some q →
      ∀ r es, lookupGroup (levelGroupsList P opts vars) r = some es →
        (v ∈ es.map VarOption.value ↔ r = q) := by
  have hlook : lookupGroup (levelGroupsList P opts vars) p =
      some ((vars.filter (groupPred P p)).map (findOption opts)) := by
    rw [lookupGroup_levelGroupsList]
    cases hf : vars.filter (groupPred P p) with
    | nil => exact absurd hf h1
    | cons e es => rfl
  refine ⟨hlook, group_values P opts vars p _ hlook, ?_, ?_⟩
  · have hc := count_variableList_foldl P p vars [] h2
    rw [show variableList P vars = List.foldl (variableListStep P) [] vars from rfl, hc]
    simp [h1]
  · intro v hv q hl hpf r es hes
    rw [group_values P opts vars r es hes]
    constructor
    · intro hm
      have hgp := List.of_mem_filter hm
      simp only [groupPred] at hgp
      rw [hpf] at hgp
      simp only [Bool.and_eq_true, beq_iff_eq, Option.some.injEq] at hgp
      exact hgp.2.symm
    · intro hr
      subst hr
      refine List.mem_filter.2 ⟨hv, ?_⟩
      simp [groupPred, hl, hpf]

/-- C6 witness: on the concrete two-member group `w`, the prefix occurs
exactly once in the scalar/group list. -/
theorem c6_grouping_witness :
    List.count "w" (variableList cPat ["w_10m", "w_2m"]) = 1 :=
  (c6_grouping cPat [] ["w_10m", "w_2m"] "w" (by decide) (by decide)).2.2.1

/-- C6 counterexample: the claim is universal over input lists, but a
non-level-bearing input equal to a group prefix falsifies "the prefix
appears exactly once in the scalar/group list": on `["w_2m", "w"]` the
classifier first appends the prefix `w` for `w_2m` and then appends the
scalar `w` verbatim and unconditionally, so `w` occurs twice. -/
theorem c6_counterexample :
    cPat.hasLevels "w" = false ∧
    cPat.hasLevels "w_2m" = true ∧
    cPat.levelPrefixOf "w_2m" = some "w" ∧
    variableList cPat ["w_2m", "w"] = ["w", "w"] ∧
    List.count "w" (variableList cPat ["w_2m", "w"]) = 2 ∧
    List.count "w" (variableList cPat ["w_2m", "w"]) ≠ 1 :=
  ⟨by decide, by decide, by decide, by decide, by decide, by decide⟩

theorem handleVariableChange_metaJson (P : LevelPatterns) (opts : List VarOption)
    (s : SelectionState) (nv : String) :
    (handleVariableChange P opts s nv).metaJson = s.metaJson := by
  unfold handleVariableChange
  cases h : lookupGroup (levelGroupsList P opts (metaVars s)) nv with
  | none => rfl
  | some levels => cases levels <;> rfl

theorem reachableOK_inv (P : LevelPatterns) (opts : List VarOption) (lgVars : List String)
    (nowMs : Nat) (s : SelectionState) (h : ReachableOK P opts lgVars nowMs s) :
    (∃ v, s.varname = some v) ∧
    ∀ m, s.metaJson = some m → ∃ v, s.varname = some v ∧ v ∈ m.vars := by
  induction h with
  | initFail =>
    refine ⟨⟨"temperature_2m", rfl⟩, ?_⟩
    intro m hm
    cases hm
  | initOk meta hmem =>
    refine ⟨⟨"temperature_2m", rfl⟩, ?_⟩
    intro m hm
    have hm2 : some meta = some m := hm
    have hm3 : meta = m := by injection hm2
    subst hm3
    exact ⟨"temperature_2m", rfl, hmem⟩
  | domainFail s' nd hr ih => exact ih
  | domainOk s' nd meta hne hr ih =>
    obtain ⟨⟨v, hv⟩, -⟩ := ih
    rw [handleDomainChange_some P s' nd meta v hv]
    by_cases hin : v ∈ meta.vars
    · rw [if_pos hin]
      refine ⟨⟨v, hv⟩, ?_⟩
      intro m hm
      have hm2 : some meta = some m := hm
      have hm3 : meta = m := by injection hm2
      subst hm3
      exact ⟨v, hv, hin⟩
    · rw [if_neg hin]
      obtain ⟨w, hw, hwm⟩ := similarVariable_mem P v meta.vars hne
      refine ⟨⟨w, hw⟩, ?_⟩
      intro m hm
      have hm2 : some meta = some m := hm
      have hm3 : meta = m := by injection hm2
      subst hm3
      exact ⟨w, hw, hwm⟩
  | varStep s' nv hnv hr ih =>
    cases hlk : lookupGroup (levelGroupsList P opts (metaVars s')) nv with
    | some levels =>
      obtain ⟨hes, hne2⟩ := lookupGroup_eq_some P opts (metaVars s') nv levels hlk
      cases levels with
      | nil => exact absurd rfl hne2
      | cons l0 rest =>
        have hres := handleVariableChange_varname P opts s' nv (l0 :: rest) l0 rest hlk rfl
        have hmemv : pickDefaultLevel (l0 :: rest) l0.value ∈
            (l0 :: rest).map VarOption.value := by
          rcases pickDefaultLevel_mem (l0 :: rest) l0.value with hm | he
          · exact hm
          · rw [he]; simp
        have hvals := group_values P opts (metaVars s') nv (l0 :: rest) hlk
        have hmem2 : pickDefaultLevel (l0 :: rest) l0.value ∈ metaVars s' := by
          rw [hvals] at hmemv
          exact List.mem_of_mem_filter hmemv
        refine ⟨⟨_, hres⟩, ?_⟩
        intro m hm
        have hm' : s'.metaJson = some m :=
          (handleVariableChange_metaJson P opts s' nv).symm.trans hm
        refine ⟨_, hres, ?_⟩
        have hmv : metaVars s' = m.vars := by unfold metaVars; rw [hm']
        rw [← hmv]
        exact hmem2
    | none =>
      have hres : (handleVariableChange P opts s' nv).varname = some nv := by
        unfold handleVariableChange
        rw [hlk]
      refine ⟨⟨nv, hres⟩, ?_⟩
      intro m hm
      have hm' : s'.metaJson = some m :=
        (handleVariableChange_metaJson P opts s' nv).symm.trans hm
      refine ⟨nv, hres, ?_⟩
      have hnv2 := mem_variableList_foldl P (metaVars s') [] nv
        (by simpa [variableList] using hnv)
      rcases hnv2 with h0 | ⟨hmem, hsc⟩ | ⟨w, hwmem, hwl, hwp⟩
      · cases h0
      · have hmv : metaVars s' = m.vars := by unfold metaVars; rw [hm']
        rw [← hmv]
        exact hmem
      · exact absurd hlk
          (lookupGroup_ne_none P opts (metaVars s') nv w hwmem
            (by simp [groupPred, hwl, hwp]))
  | levelStep s' nl hnl hr ih =>
    refine ⟨⟨nl, rfl⟩, ?_⟩
    intro m hm
    have hm' : s'.metaJson = some m := hm
    refine ⟨nl, rfl, ?_⟩
    have hsub := currentLevels_values_mem P opts lgVars s' nl hnl
    have hmv : metaVars s' = m.vars := by unfold metaVars; rw [hm']
    rw [← hmv]
    exact hsub

/-- C5 (amended): once the environment behaves as the UI arranges — the
initial document lists the hard-coded default `temperature_2m`, every
successfully fetched document has a nonempty variable list, variable
selectors come from the derived scalar/group list, and level selectors
come from the currently offered level entries — the invariant holds in
every reachable state: whenever a document is loaded, the current
variable is a member of its variable set, and all three transitions
preserve this.  (Unrestricted reachability violates the claim at
startup; see the counterexample.) -/
theorem c5_invariant (P : LevelPatterns) (opts : List VarOption) (lgVars : List String)
    (nowMs : Nat) (s : SelectionState) (h : ReachableOK P opts lgVars nowMs s)
    (m : DomainMetaDataJson) (hm : s.metaJson = some m) :
    ∃ v, s.varname = some v ∧ v ∈ m.vars :=
  (reachableOK_inv P opts lgVars nowMs s h).2 m hm

/-- C5 witness: loading an initial document that does contain the
default variable satisfies the invariant. -/
theorem c5_invariant_witness :
    ∃ v, (initMapLoad (initialState 0) (some c5GoodDoc)).varname = some v ∧
      v ∈ c5GoodDoc.vars :=
  c5_invariant cPat [] [] 0 _ (ReachableOK.initOk c5GoodDoc (by decide)) c5GoodDoc rfl

/-- C5 counterexample: the startup transition never reconciles the
hard-coded default with the first document, so loading a document
without `temperature_2m` yields a reachable loaded state whose variable
is outside the document's variable set. -/
theorem c5_counterexample :
    Reachable cPat [] 0 (initMapLoad (initialState 0) (some c5BadDoc)) ∧
    (initMapLoad (initialState 0) (some c5BadDoc)).metaJson = some c5BadDoc ∧
    (initMapLoad (initialState 0) (some c5BadDoc)).varname = some "temperature_2m" ∧
    ("temperature_2m" : String) ∉ c5BadDoc.vars :=
  ⟨Reachable.init (some c5BadDoc), rfl, rfl, by decide⟩

/-- C9: the display timestamp is computed once at startup as the current
time rounded up to the next whole UTC hour — a multiple of an hour,
strictly after `now`, and the least such instant — and never
recomputed: every reachable state carries the startup value unchanged,
so every later overlay URL uses the same timestamp. -/
theorem c9_selected_time :
    (∀ nowMs : Nat,
      nextWholeHour nowMs % msPerHour = 0 ∧
      nowMs < nextWholeHour nowMs ∧
      ∀ t, t % msPerHour = 0 → nowMs < t → nextWholeHour nowMs ≤ t) ∧
    (∀ (P : LevelPatterns) (opts : List VarOption) (nowMs : Nat) (s : SelectionState),
      Reachable P opts nowMs s → s.selectedTime = nextWholeHour nowMs) := by
  constructor
  · intro nowMs
    refine ⟨Nat.mul_mod_left _ _, ?_, ?_⟩
    · have hH : 0 < msPerHour := by decide
      have hlt : nowMs < nowMs / msPerHour * msPerHour + msPerHour :=
        Nat.lt_div_mul_add hH
      calc nowMs < nowMs / msPerHour * msPerHour + msPerHour := hlt
        _ = (nowMs / msPerHour + 1) * msPerHour := by ring
    · intro t ht hlt
      have hH : 0 < msPerHour := by decide
      obtain ⟨k, hk⟩ := Nat.dvd_of_mod_eq_zero ht
      subst hk
      have hdiv : nowMs / msPerHour < k := by
        rw [Nat.div_lt_iff_lt_mul hH]
        calc nowMs < msPerHour * k := hlt
          _ = k * msPerHour := Nat.mul_comm _ _
      calc nextWholeHour nowMs = (nowMs / msPerHour + 1) * msPerHour := rfl
        _ ≤ k * msPerHour := Nat.mul_le_mul_right _ hdiv
        _ = msPerHour * k := Nat.mul_comm _ _
  · intro P opts nowMs s h
    induction h with
    | init fetched => cases fetched <;> rfl
    | domainStep s' nd fetched hr ih =>
      rw [handleDomainChange_selectedTime, ih]
    | varStep s' nv hr ih =>
      rw [handleVariableChange_selectedTime, ih]
    | levelStep s' nl hr ih => exact ih

/-- C9 witness: at a concrete clock value, the rounded instant is the
least whole hour after it, and the initial state carries it. -/
theorem c9_selected_time_witness :
    nextWholeHour 5000 ≤ 3600000 ∧
    (initMapLoad (initialState 0) none).selectedTime = nextWholeHour 0 :=
  ⟨(c9_selected_time.1 5000).2.2 3600000 (by decide) (by decide),
    c9_selected_time.2 cPat [] 0 _ (Reachable.init none)⟩
